import Mathlib

/-!
Shallow embedding of the OSL closure core (`src/include/oslclosure.h`):
primitive descriptors (`ClosurePrimitive`), the BSDF / emissive contract
subclasses, and the weighted closure buffer (`ClosureColor`) with its
composition algebra.

The header declares several member functions whose bodies live in a
translation unit that is not part of the sources (the `ClosurePrimitive`
constructor, `ClosureColor::add_component`, `ClosureColor::add`,
`ClosureColor::mul`).  Those are modelled from the specification text and
carry a doc comment starting with `Modelled from the spec:`.  Everything
else (`clear`, `set`, `set_parameter`, the accessors, and the `Component`
constructors) is translated from the inline code in the header.

Floating point weights are modelled by rational numbers: every property
proved below is structural or exactly algebraic, never rounding-sensitive.
The parameter byte arena (`std::vector<char> m_mem`) is a `List Nat` of
byte values.
-/

namespace OSL

/-- Modelled from the spec: the "small fixed set of semantic argument types
(float, vector, color, ...) with known byte sizes" consumed from external
collaborators; the header stores them as `TypeDesc` values parsed from
one-letter codes. -/
inductive ArgType where
  | tFloat
  | tVector
  | tPoint
  | tNormal
  | tColor
  | tMatrix
  | tString

instance : Inhabited ArgType := ⟨ArgType.tFloat⟩

/-- Byte size of each semantic argument type (float 4 bytes, 3-vectors 12,
4x4 matrix 64, interned string pointer 8). -/
def ArgType.size : ArgType → Nat
  | .tFloat => 4
  | .tVector => 12
  | .tPoint => 12
  | .tNormal => 12
  | .tColor => 12
  | .tMatrix => 64
  | .tString => 8

/-- Modelled from the spec: decoding of a one-letter argument type code;
an unrecognized letter is a construction failure. -/
def typeFromCode (ch : Char) : Option ArgType :=
  if ch = 'f' then some ArgType.tFloat
  else if ch = 'v' then some ArgType.tVector
  else if ch = 'p' then some ArgType.tPoint
  else if ch = 'n' then some ArgType.tNormal
  else if ch = 'c' then some ArgType.tColor
  else if ch = 'm' then some ArgType.tMatrix
  else if ch = 's' then some ArgType.tString
  else none

/-- Parse a whole argument-type-code string, failing if any letter is
unrecognized. -/
def parseArgCodes : List Char → Option (List ArgType)
  | [] => some []
  | ch :: rest =>
    match typeFromCode ch, parseArgCodes rest with
    | some t, some ts => some (t :: ts)
    | _, _ => none

/-- `ClosurePrimitive::Category`: the categories of closure primitives. -/
inductive Category where
  | BSDF
  | Emissive

/-- The state of a `ClosurePrimitive` descriptor: name, category, parsed
argument types, per-argument byte offsets, total argument memory and the
original code string (fields `m_name` .. `m_argcodes` of the class). -/
structure ClosurePrimitive where
  m_name : String
  m_category : Category
  m_argtypes : List ArgType
  m_argoffsets : List Nat
  m_argmem : Nat
  m_argcodes : String

instance : Inhabited ClosurePrimitive :=
  ⟨⟨"", Category.BSDF, [], [], 0, ""⟩⟩

/-- Accessor `name()`. -/
def ClosurePrimitive.name (p : ClosurePrimitive) : String := p.m_name

/-- Accessor `nargs()`: the number of arguments the primitive expects. -/
def ClosurePrimitive.nargs (p : ClosurePrimitive) : Nat := p.m_argtypes.length

/-- Accessor `argcodes()`. -/
def ClosurePrimitive.argcodes (p : ClosurePrimitive) : String := p.m_argcodes

/-- Accessor `argtype(i)`: type of the i-th argument (unchecked indexing in
the source; modelled total with a default). -/
def ClosurePrimitive.argtype (p : ClosurePrimitive) (i : Nat) : ArgType :=
  p.m_argtypes.getD i default

/-- Accessor `argoffset(i)`: byte offset of the i-th argument (unchecked
indexing in the source; modelled total with a default). -/
def ClosurePrimitive.argoffset (p : ClosurePrimitive) (i : Nat) : Nat :=
  p.m_argoffsets.getD i 0

/-- Accessor `argmem()`: total argument memory needed by this primitive. -/
def ClosurePrimitive.argmem (p : ClosurePrimitive) : Nat := p.m_argmem

/-- Accessor `category()`. -/
def ClosurePrimitive.category (p : ClosurePrimitive) : Category := p.m_category

/-- Offsets obtained by accumulating the byte size of each preceding
argument type, starting from `acc`. -/
def offsetsFrom (acc : Nat) : List ArgType → List Nat
  | [] => []
  | t :: ts => acc :: offsetsFrom (acc + t.size) ts

/-- Sum of the byte sizes of a list of argument types. -/
def sizeSum (ts : List ArgType) : Nat := (ts.map ArgType.size).sum

/-- Modelled from the spec: the `ClosurePrimitive` constructor (declared in
the header, body not among the sources).  Given a name, an
argument-type-code string and a category it parses the argument types,
computes the per-argument offsets "by accumulating the byte size of each
preceding argument type", the total size `argmem` as the "sum of all
argument sizes", and retains the code string; it fails if the code string
contains an unrecognized type letter. -/
def mkClosurePrimitive (name : String) (argtypes : String) (category : Category) :
    Option ClosurePrimitive :=
  match parseArgCodes argtypes.toList with
  | none => none
  | some ts => some ⟨name, category, ts, offsetsFrom 0 ts, sizeSum ts, argtypes⟩

/-- `BSDFClosure` constructor: forwards to the `ClosurePrimitive`
constructor with category `BSDF` (header line 121-122). -/
def BSDFClosure.make (name : String) (argtypes : String) : Option ClosurePrimitive :=
  mkClosurePrimitive name argtypes Category.BSDF

/-- `EmissiveClosure` constructor: forwards to the `ClosurePrimitive`
constructor with category `Emissive` (header line 174-175). -/
def EmissiveClosure.make (name : String) (argtypes : String) : Option ClosurePrimitive :=
  mkClosurePrimitive name argtypes Category.Emissive

/-- A 3-channel color (Imath `Color3`), with exact rationals standing in
for the floats. -/
structure Color3 where
  r : ℚ
  g : ℚ
  b : ℚ

instance : Inhabited Color3 := ⟨⟨0, 0, 0⟩⟩

/-- Componentwise (Hadamard) product of two colors, as in `weight *= w`. -/
def Color3.mulC (a w : Color3) : Color3 := ⟨a.r * w.r, a.g * w.g, a.b * w.b⟩

/-- Scaling of a color by a scalar, as in `weight *= f`. -/
def Color3.scale (a : Color3) (f : ℚ) : Color3 := ⟨a.r * f, a.g * f, a.b * f⟩

/-- `ClosureColor::Component`: one component of the closure, holding the
primitive, a cached argument count, the offset of its parameters into the
closure arena and its weight. -/
structure Component where
  cprim : ClosurePrimitive
  nargs : Nat
  memoffset : Nat
  weight : Color3

instance : Inhabited Component := ⟨⟨default, 0, 0, default⟩⟩

/-- The primary `Component` constructor (header line 293-294):
`cprim(prim), nargs(prim->nargs()), memoffset(0), weight(w)`. -/
def Component.make (prim : ClosurePrimitive) (w : Color3) : Component :=
  ⟨prim, prim.nargs, 0, w⟩

/-- The `Component` copy constructor (header line 295-296):
`cprim(x.cprim), nargs(cprim->nargs()), memoffset(0), weight(x.weight)` —
note that it recomputes `nargs` from the primitive and resets `memoffset`
to 0. -/
def Component.copy (x : Component) : Component :=
  ⟨x.cprim, x.cprim.nargs, 0, x.weight⟩

/-- `ClosureColor`: a linear combination of weights times components, with
one contiguous arena `m_mem` holding all packed parameters. -/
structure ClosureColor where
  m_components : List Component
  m_mem : List Nat

instance : Inhabited ClosureColor := ⟨⟨[], []⟩⟩

/-- The default `ClosureColor` constructor: an empty buffer. -/
def ClosureColor.empty : ClosureColor := ⟨[], []⟩

/-- `clear()`: `m_components.clear(); m_mem.clear();`. -/
def ClosureColor.clear (_c : ClosureColor) : ClosureColor := ⟨[], []⟩

/-- The arena slot for a new component: `argmem` bytes reserved at the end
of the arena with the caller's `params` bytes copied in (the `memcpy`
copies exactly `argmem` bytes from the caller's pointer; shorter input is
zero-padded here where the source would read out of bounds). -/
def fitBytes (n : Nat) (p : List Nat) : List Nat :=
  p.take n ++ List.replicate (n - p.length) 0

/-- Modelled from the spec: `ClosureColor::add_component` (declared in the
header, body not among the sources).  "Appends one component: reserves
`primitive.argmem` bytes at the end of the arena, copies `params` bytes
into that slot, records offset, and stores `weight`"; no deduplication or
merging of identical primitives is performed. -/
def ClosureColor.add_component (c : ClosureColor) (cprim : ClosurePrimitive)
    (weight : Color3) (params : List Nat) : ClosureColor :=
  ⟨c.m_components ++ [{ Component.make cprim weight with memoffset := c.m_mem.length }],
   c.m_mem ++ fitBytes cprim.argmem params⟩

/-- `set(prim, params)` (header line 215-218): `clear()` followed by
`add_component(prim, Color3(1.0f, 1.0f, 1.0f), params)`. -/
def ClosureColor.set (c : ClosureColor) (prim : ClosurePrimitive)
    (params : List Nat) : ClosureColor :=
  (c.clear).add_component prim ⟨1, 1, 1⟩ params

/-- Relocation of a component's parameter offset when its arena bytes are
appended after `k` existing bytes. -/
def Component.shiftOffset (k : Nat) (x : Component) : Component :=
  { x with memoffset := x.memoffset + k }

/-- Modelled from the spec: the in-place `ClosureColor::add(A)` (declared
in the header, body not among the sources).  "Concatenates component lists
and arenas", preserving "each source buffer's internal component/parameter
layout (copy, not move)": the appended components keep their primitive and
weight and their offsets are relocated past the existing arena bytes. -/
def ClosureColor.add (c A : ClosureColor) : ClosureColor :=
  ⟨c.m_components ++ A.m_components.map (Component.shiftOffset c.m_mem.length),
   c.m_mem ++ A.m_mem⟩

/-- Modelled from the spec: the two-argument `ClosureColor::add(a, b)`
"into a fresh buffer": the receiver is replaced by `a + b`. -/
def ClosureColor.add2 (_c a b : ClosureColor) : ClosureColor := a.add b

/-- Modelled from the spec: `ClosureColor::mul(w)` (declared in the header,
body not among the sources).  "Multiplies every component's weight in
place by the given factor; does not touch packed parameter bytes"; no
renormalization or clamping. -/
def ClosureColor.mulColor (c : ClosureColor) (w : Color3) : ClosureColor :=
  ⟨c.m_components.map (fun x => { x with weight := x.weight.mulC w }), c.m_mem⟩

/-- Modelled from the spec: `ClosureColor::mul(f)` for a scalar factor. -/
def ClosureColor.mulScalar (c : ClosureColor) (f : ℚ) : ClosureColor :=
  ⟨c.m_components.map (fun x => { x with weight := x.weight.scale f }), c.m_mem⟩

/-- `ncomponents()` (header line 261). -/
def ClosureColor.ncomponents (c : ClosureColor) : Nat := c.m_components.length

/-- `component(i)` (header line 301): `m_components[i]`, unchecked in the
source; modelled total with a default. -/
def ClosureColor.component (c : ClosureColor) (i : Nat) : Component :=
  c.m_components.getD i default

/-- `weight(i)` (header line 265): `component(i).weight`. -/
def ClosureColor.weight (c : ClosureColor) (i : Nat) : Color3 :=
  (c.component i).weight

/-- `prim(i)` (header line 269): `component(i).cprim`. -/
def ClosureColor.prim (c : ClosureColor) (i : Nat) : ClosurePrimitive :=
  (c.component i).cprim

/-- `compdata(i)` (header line 273): the raw parameter bytes of the i-th
component, `&m_mem[component(i).memoffset]`; the view extends over the
`argmem` bytes of that component's primitive. -/
def ClosureColor.compdata (c : ClosureColor) (i : Nat) : List Nat :=
  (c.m_mem.drop (c.component i).memoffset).take (c.component i).cprim.argmem

/-- Overwrite of a byte range: `writeBytesAt mem off data` replaces the
bytes of `mem` from position `off` on by `data` (clamped at `mem`'s end,
where the source `memcpy` would write out of bounds). -/
def writeBytesAt : List Nat → Nat → List Nat → List Nat
  | [], _, _ => []
  | m :: ms, off + 1, data => m :: writeBytesAt ms off data
  | _m :: ms, 0, d :: ds => d :: writeBytesAt ms 0 ds
  | m :: ms, 0, [] => m :: ms

/-- `set_parameter(component, param, data)` (header line 277-281):
`memcpy(&m_mem[comp.memoffset + comp.cprim->argoffset(param)], data,
comp.cprim->argtype(param).size())`.  Indexing of `m_components` is
unchecked in the source; modelled total with a default. -/
def ClosureColor.set_parameter (c : ClosureColor) (component param : Nat)
    (data : List Nat) : ClosureColor :=
  ⟨c.m_components,
   writeBytesAt c.m_mem
     ((c.component component).memoffset + (c.component component).cprim.argoffset param)
     (data.take ((c.component component).cprim.argtype param).size)⟩

/-- Buffer well-formedness (spec §3 invariant): each component's parameter
bytes lie inside the arena. -/
def ClosureColor.wfMem (c : ClosureColor) : Prop :=
  ∀ x ∈ c.m_components, x.memoffset + x.cprim.argmem ≤ c.m_mem.length

instance (c : ClosureColor) : Decidable c.wfMem := by
  unfold ClosureColor.wfMem
  infer_instance

/-- The cached-argument-count invariant of a single component: the `nargs`
field agrees with the primitive's argument count. -/
def Component.nargsOk (x : Component) : Prop := x.nargs = x.cprim.nargs

instance (x : Component) : Decidable x.nargsOk := by
  unfold Component.nargsOk
  infer_instance

/-- The cached-argument-count invariant over a whole buffer. -/
def ClosureColor.nargsInv (c : ClosureColor) : Prop :=
  ∀ x ∈ c.m_components, x.nargsOk

instance (c : ClosureColor) : Decidable c.nargsInv := by
  unfold ClosureColor.nargsInv
  infer_instance

/-! Helper lemmas about `offsetsFrom`, `writeBytesAt` and arena slices. -/

theorem offsetsFrom_length (acc : Nat) (ts : List ArgType) :
    (offsetsFrom acc ts).length = ts.length := by
  induction ts generalizing acc with
  | nil => rfl
  | cons t ts ih => simp [offsetsFrom, ih]

theorem offsetsFrom_getD_zero (acc : Nat) (ts : List ArgType) (h : ts ≠ []) :
    (offsetsFrom acc ts).getD 0 0 = acc := by
  cases ts with
  | nil => exact absurd rfl h
  | cons t ts => rfl

theorem offsetsFrom_getD_succ (acc : Nat) (ts : List ArgType) (i : Nat)
    (h : i + 1 < ts.length) :
    (offsetsFrom acc ts).getD (i + 1) 0 =
      (offsetsFrom acc ts).getD i 0 + (ts.getD i default).size := by
  induction ts generalizing acc i with
  | nil => simp at h
  | cons t ts ih =>
    cases i with
    | zero =>
      cases ts with
      | nil => simp at h
      | cons u us => simp [offsetsFrom]
    | succ j =>
      have hj : j + 1 < ts.length := by
        simpa [Nat.succ_lt_succ_iff] using h
      simpa [offsetsFrom, List.getD_cons_succ] using ih (acc + t.size) j hj

theorem fitBytes_exact (n : Nat) (p : List Nat) (h : p.length = n) :
    fitBytes n p = p := by
  subst h
  simp [fitBytes, List.take_length]

theorem writeBytesAt_length (mem : List Nat) (off : Nat) (data : List Nat) :
    (writeBytesAt mem off data).length = mem.length := by
  induction mem generalizing off data with
  | nil => rfl
  | cons m ms ih =>
    cases off with
    | zero =>
      cases data with
      | nil => rfl
      | cons d ds => simp [writeBytesAt, ih]
    | succ o => simp [writeBytesAt, ih]

theorem writeBytesAt_getD_lt (mem : List Nat) (off : Nat) (data : List Nat)
    (k : Nat) (hk : k < off) :
    (writeBytesAt mem off data).getD k 0 = mem.getD k 0 := by
  induction mem generalizing off data k with
  | nil => rfl
  | cons m ms ih =>
    cases off with
    | zero => omega
    | succ o =>
      cases k with
      | zero => rfl
      | succ j =>
        simpa [writeBytesAt, List.getD_cons_succ] using ih o data j (by omega)

theorem writeBytesAt_getD_in (mem : List Nat) (off : Nat) (data : List Nat)
    (k : Nat) (hk : k < data.length) (hin : off + k < mem.length) :
    (writeBytesAt mem off data).getD (off + k) 0 = data.getD k 0 := by
  induction mem generalizing off data k with
  | nil => simp at hin
  | cons m ms ih =>
    cases off with
    | zero =>
      cases data with
      | nil => simp at hk
      | cons d ds =>
        cases k with
        | zero => rfl
        | succ j =>
          have := ih 0 ds j (by simpa using hk) (by simpa using hin)
          simpa [writeBytesAt, List.getD_cons_succ] using this
    | succ o =>
      have := ih o data k hk (by simpa [Nat.succ_add] using hin)
      simpa [writeBytesAt, Nat.succ_add, List.getD_cons_succ] using this

theorem writeBytesAt_getD_ge (mem : List Nat) (off : Nat) (data : List Nat)
    (k : Nat) (hk : off + data.length ≤ k) :
    (writeBytesAt mem off data).getD k 0 = mem.getD k 0 := by
  induction mem generalizing off data k with
  | nil => rfl
  | cons m ms ih =>
    cases off with
    | zero =>
      cases data with
      | nil => simp [writeBytesAt]
      | cons d ds =>
        cases k with
        | zero => simp at hk
        | succ j =>
          have := ih 0 ds j (by simpa using hk)
          simpa [writeBytesAt, List.getD_cons_succ] using this
    | succ o =>
      cases k with
      | zero => omega
      | succ j =>
        have := ih o data j (by omega)
        simpa [writeBytesAt, List.getD_cons_succ] using this

theorem slice_append_left (l1 l2 : List Nat) (off n : Nat)
    (h : off + n ≤ l1.length) :
    ((l1 ++ l2).drop off).take n = (l1.drop off).take n := by
  rw [List.drop_append_of_le_length (by omega)]
  rw [List.take_append_of_le_length (by simp; omega)]

theorem slice_append_right (l1 l2 : List Nat) (off n : Nat) :
    ((l1 ++ l2).drop (l1.length + off)).take n = (l2.drop off).take n := by
  rw [List.drop_append off]

theorem getD_append_left_comp (l1 l2 : List Component) (i : Nat)
    (h : i < l1.length) :
    (l1 ++ l2).getD i default = l1.getD i default := by
  exact List.getD_append l1 l2 default i h

theorem getD_append_right_comp (l1 l2 : List Component) (j : Nat) :
    (l1 ++ l2).getD (l1.length + j) default = l2.getD j default := by
  rw [List.getD_append_right l1 l2 default (l1.length + j) (by omega)]
  congr 1
  omega

theorem getD_map_comp (f : Component → Component) (l : List Component) (j : Nat)
    (h : j < l.length) :
    (l.map f).getD j default = f (l.getD j default) := by
  rw [List.getD_eq_getElem _ _ (by simpa using h), List.getD_eq_getElem _ _ h]
  simp

theorem getD_take (data : List Nat) (n k : Nat) (hk : k < n)
    (hkd : k < data.length) :
    (data.take n).getD k 0 = data.getD k 0 := by
  rw [List.getD_eq_getElem _ _ (by simp [List.length_take]; omega),
      List.getD_eq_getElem _ _ hkd]
  simp [List.getElem_take]

/-! Concrete fixtures used by the witnesses. -/

/-- A concrete diffuse BSDF primitive with one vector argument. -/
def diffusePrim : ClosurePrimitive :=
  (BSDFClosure.make "diffuse" "v").getD default

/-- A concrete glossy BSDF primitive with signature "vff". -/
def phongPrim : ClosurePrimitive :=
  (BSDFClosure.make "phong" "vff").getD default

/-- A concrete emissive primitive with no arguments. -/
def emissionPrim : ClosurePrimitive :=
  (EmissiveClosure.make "emission" "").getD default

/-- Twelve parameter bytes encoding one vector argument. -/
def vParams : List Nat := [1, 2, 3, 4, 5, 6, 7, 8, 9, 10, 11, 12]

/-- A one-component buffer on `diffusePrim` with weight (1,0,0). -/
def bufRed : ClosureColor :=
  ClosureColor.empty.add_component diffusePrim ⟨1, 0, 0⟩ vParams

/-- A one-component buffer on `diffusePrim` with weight (0,1,0). -/
def bufGreen : ClosureColor :=
  ClosureColor.empty.add_component diffusePrim ⟨0, 1, 0⟩ vParams

/-! Claim theorems. -/

/-- Claim C8: after `clear()` every introspection reports an empty buffer:
`ncomponents()` returns 0 and the parameter arena's used length is 0. -/
theorem c8_clear_empties (c : ClosureColor) :
    (c.clear).ncomponents = 0 ∧ (c.clear).m_mem.length = 0 :=
  ⟨rfl, rfl⟩

/-- Claim C3: `set(primitive, params)` is equivalent to `clear()` followed
by a single `add_component` with weight (1,1,1): afterwards the buffer has
exactly one component, its weight is (1,1,1), its primitive is the given
one, and its packed parameter bytes are those supplied. -/
theorem c3_set_equiv_clear_add (c : ClosureColor) (prim : ClosurePrimitive)
    (params : List Nat) (h : params.length = prim.argmem) :
    c.set prim params = (c.clear).add_component prim ⟨1, 1, 1⟩ params ∧
    (c.set prim params).ncomponents = 1 ∧
    (c.set prim params).weight 0 = ⟨1, 1, 1⟩ ∧
    (c.set prim params).prim 0 = prim ∧
    (c.set prim params).compdata 0 = params := by
  refine ⟨rfl, rfl, rfl, rfl, ?_⟩
  have hfit := fitBytes_exact prim.argmem params h
  simp [ClosureColor.set, ClosureColor.clear, ClosureColor.add_component,
        ClosureColor.compdata, ClosureColor.component, Component.make, hfit]
  exact le_of_eq h

/-- Witness for C3 at a concrete buffer, primitive and parameter block. -/
theorem c3_set_equiv_clear_add_witness :
    vParams.length = diffusePrim.argmem ∧
    (bufRed.set diffusePrim vParams).compdata 0 = vParams :=
  ⟨rfl, (c3_set_equiv_clear_add bufRed diffusePrim vParams rfl).2.2.2.2⟩

/-- Claim C4: for every descriptor successfully constructed from a name, an
argument-type-code string and a category, `argmem` equals the sum of the
byte sizes of all parsed argument types and the stored offsets are the
exclusive prefix sums of the argument sizes. -/
theorem c4_descriptor_layout (nm args : String) (cat : Category)
    (p : ClosurePrimitive) (h : mkClosurePrimitive nm args cat = some p) :
    p.argmem = sizeSum p.m_argtypes ∧
    (0 < p.nargs → p.argoffset 0 = 0) ∧
    ∀ i, i + 1 < p.nargs → p.argoffset (i + 1) = p.argoffset i + (p.argtype i).size := by
  unfold mkClosurePrimitive at h
  cases hp : parseArgCodes args.toList with
  | none => rw [hp] at h; exact absurd h (by simp)
  | some ts =>
    rw [hp] at h
    injection h with h
    subst h
    refine ⟨rfl, ?_, ?_⟩
    · intro hn
      have hts : ts ≠ [] := by
        intro hnil
        subst hnil
        simp [ClosurePrimitive.nargs] at hn
      exact offsetsFrom_getD_zero 0 ts hts
    · intro i hi
      have hi' : i + 1 < ts.length := hi
      show (offsetsFrom 0 ts).getD (i + 1) 0
          = (offsetsFrom 0 ts).getD i 0 + (ts.getD i default).size
      exact offsetsFrom_getD_succ 0 ts i hi'

/-- Witness for C4 at the concrete "vff" descriptor. -/
theorem c4_descriptor_layout_witness :
    mkClosurePrimitive "phong" "vff" Category.BSDF = some phongPrim ∧
    phongPrim.argmem = sizeSum phongPrim.m_argtypes ∧
    phongPrim.argoffset 1 = phongPrim.argoffset 0 + (phongPrim.argtype 0).size := by
  have h : mkClosurePrimitive "phong" "vff" Category.BSDF = some phongPrim := rfl
  have h2 := c4_descriptor_layout "phong" "vff" Category.BSDF phongPrim h
  exact ⟨h, h2.1, h2.2.2 0 (by decide)⟩

/-- Claim C5: the component count of `add(a, b)` equals the sum of the two
component counts, and adding two one-component buffers on the same
primitive with weights (1,0,0) and (0,1,0) yields a two-component buffer
whose per-index weights are exactly the two inputs, never merged. -/
theorem c5_add_counts :
    (∀ dest a b : ClosureColor,
        (ClosureColor.add2 dest a b).ncomponents = a.ncomponents + b.ncomponents) ∧
    (ClosureColor.add2 ClosureColor.empty bufRed bufGreen).ncomponents = 2 ∧
    (ClosureColor.add2 ClosureColor.empty bufRed bufGreen).weight 0 = ⟨1, 0, 0⟩ ∧
    (ClosureColor.add2 ClosureColor.empty bufRed bufGreen).weight 1 = ⟨0, 1, 0⟩ ∧
    (ClosureColor.add2 ClosureColor.empty bufRed bufGreen).prim 0 = diffusePrim ∧
    (ClosureColor.add2 ClosureColor.empty bufRed bufGreen).prim 1 = diffusePrim := by
  refine ⟨?_, rfl, rfl, rfl, rfl, rfl⟩
  intro dest a b
  simp [ClosureColor.add2, ClosureColor.add, ClosureColor.ncomponents]

/-- Claim C10: every descriptor constructed through the `BSDFClosure`
constructor has category `BSDF` and every descriptor constructed through
the `EmissiveClosure` constructor has category `Emissive`; descriptors are
immutable, so the category never changes. -/
theorem c10_category_fixed (nm args : String) :
    (∀ p, BSDFClosure.make nm args = some p → p.category = Category.BSDF) ∧
    (∀ q, EmissiveClosure.make nm args = some q → q.category = Category.Emissive) := by
  constructor
  · intro p h
    unfold BSDFClosure.make mkClosurePrimitive at h
    cases hp : parseArgCodes args.toList with
    | none => rw [hp] at h; exact absurd h (by simp)
    | some ts => rw [hp] at h; injection h with h; subst h; rfl
  · intro q h
    unfold EmissiveClosure.make mkClosurePrimitive at h
    cases hp : parseArgCodes args.toList with
    | none => rw [hp] at h; exact absurd h (by simp)
    | some ts => rw [hp] at h; injection h with h; subst h; rfl

/-- Claim C2: `add(a, b)` (and the in-place `add(A)`) preserves each source
buffer's internal component/parameter layout: every copied component still
refers to the same primitive and weight, and its recorded memoffset still
points at a copy of exactly that component's original packed parameter
bytes.  (Sources are values here, so they are trivially left unchanged.) -/
theorem c2_add_preserves_layout (a b : ClosureColor) (ha : a.wfMem) :
    (∀ dest, ClosureColor.add2 dest a b = a.add b) ∧
    (∀ i, i < a.ncomponents →
      ((a.add b).component i).cprim = (a.component i).cprim ∧
      ((a.add b).component i).weight = (a.component i).weight ∧
      ((a.add b).component i).memoffset = (a.component i).memoffset ∧
      (a.add b).compdata i = a.compdata i) ∧
    (∀ j, j < b.ncomponents →
      ((a.add b).component (a.ncomponents + j)).cprim = (b.component j).cprim ∧
      ((a.add b).component (a.ncomponents + j)).weight = (b.component j).weight ∧
      (a.add b).compdata (a.ncomponents + j) = b.compdata j) := by
  have hmem : ∀ i, i < a.ncomponents → a.component i ∈ a.m_components := by
    intro i hi
    rw [ClosureColor.component, List.getD_eq_getElem _ _ hi]
    exact List.getElem_mem hi
  have hcomp_left : ∀ i, i < a.ncomponents →
      (a.add b).component i = a.component i := by
    intro i hi
    exact getD_append_left_comp a.m_components
      (b.m_components.map (Component.shiftOffset a.m_mem.length)) i hi
  have hcomp_right : ∀ j, j < b.ncomponents →
      (a.add b).component (a.ncomponents + j)
        = Component.shiftOffset a.m_mem.length (b.component j) := by
    intro j hj
    show (a.m_components ++ b.m_components.map (Component.shiftOffset a.m_mem.length)).getD
        (a.m_components.length + j) default = _
    rw [getD_append_right_comp]
    exact getD_map_comp _ _ j hj
  refine ⟨fun dest => rfl, ?_, ?_⟩
  · intro i hi
    have hc := hcomp_left i hi
    refine ⟨by rw [hc], by rw [hc], by rw [hc], ?_⟩
    show ((a.m_mem ++ b.m_mem).drop ((a.add b).component i).memoffset).take
        ((a.add b).component i).cprim.argmem = _
    rw [hc]
    exact slice_append_left a.m_mem b.m_mem _ _ (ha _ (hmem i hi))
  · intro j hj
    have hc := hcomp_right j hj
    refine ⟨by rw [hc]; rfl, by rw [hc]; rfl, ?_⟩
    show ((a.m_mem ++ b.m_mem).drop ((a.add b).component (a.ncomponents + j)).memoffset).take
        ((a.add b).component (a.ncomponents + j)).cprim.argmem = _
    rw [hc]
    show ((a.m_mem ++ b.m_mem).drop ((b.component j).memoffset + a.m_mem.length)).take
        (b.component j).cprim.argmem = _
    rw [Nat.add_comm (b.component j).memoffset a.m_mem.length]
    exact slice_append_right a.m_mem b.m_mem _ _

/-- Witness for C2 at two concrete one-component buffers. -/
theorem c2_add_preserves_layout_witness :
    bufRed.wfMem ∧
    (bufRed.add bufGreen).compdata 0 = bufRed.compdata 0 ∧
    (bufRed.add bufGreen).compdata (bufRed.ncomponents + 0) = bufGreen.compdata 0 := by
  have hw : bufRed.wfMem := by decide
  have h := c2_add_preserves_layout bufRed bufGreen hw
  exact ⟨hw, (h.2.1 0 (by decide)).2.2.2, (h.2.2 0 (by decide)).2.2⟩

/-- Claim C6: `mul(f)` / `mul(w)` multiplies every component's weight in
place by the given factor and leaves the arena bytes, the component count,
each component's primitive and each memoffset unchanged; the factor is
arbitrary (negative or super-unity values pass through unclamped). -/
theorem c6_mul_spec (c : ClosureColor) (w : Color3) (f : ℚ) :
    (c.mulColor w).m_mem = c.m_mem ∧
    (c.mulScalar f).m_mem = c.m_mem ∧
    (c.mulColor w).ncomponents = c.ncomponents ∧
    (c.mulScalar f).ncomponents = c.ncomponents ∧
    ∀ i, i < c.ncomponents →
      ((c.mulColor w).component i).weight = (c.component i).weight.mulC w ∧
      ((c.mulColor w).component i).cprim = (c.component i).cprim ∧
      ((c.mulColor w).component i).memoffset = (c.component i).memoffset ∧
      ((c.mulScalar f).component i).weight = (c.component i).weight.scale f ∧
      ((c.mulScalar f).component i).cprim = (c.component i).cprim ∧
      ((c.mulScalar f).component i).memoffset = (c.component i).memoffset := by
  refine ⟨rfl, rfl,
    by simp [ClosureColor.mulColor, ClosureColor.ncomponents],
    by simp [ClosureColor.mulScalar, ClosureColor.ncomponents], ?_⟩
  intro i hi
  have h1 : (c.mulColor w).component i
      = { c.component i with weight := (c.component i).weight.mulC w } :=
    getD_map_comp (fun x => { x with weight := x.weight.mulC w }) c.m_components i hi
  have h2 : (c.mulScalar f).component i
      = { c.component i with weight := (c.component i).weight.scale f } :=
    getD_map_comp (fun x => { x with weight := x.weight.scale f }) c.m_components i hi
  exact ⟨by rw [h1], by rw [h1], by rw [h1], by rw [h2], by rw [h2], by rw [h2]⟩

/-- Witness for C6 at a concrete buffer with a negative color factor and a
negative scalar factor. -/
theorem c6_mul_spec_witness :
    0 < bufRed.ncomponents ∧
    ((bufRed.mulColor ⟨-2, 1, 1⟩).component 0).weight
      = (bufRed.component 0).weight.mulC ⟨-2, 1, 1⟩ ∧
    ((bufRed.mulScalar (-3)).component 0).weight
      = (bufRed.component 0).weight.scale (-3) := by
  have h := (c6_mul_spec bufRed ⟨-2, 1, 1⟩ (-3)).2.2.2.2 0 (by decide)
  exact ⟨by decide, h.1, h.2.2.2.1⟩

/-- Claim C7: for a valid component index and a valid parameter index,
`set_parameter(c, p, data)` overwrites exactly `argtype(p).size()` bytes of
the arena starting at `memoffset + argoffset(p)` with the given data and
leaves every other arena byte, the component list and all weights
unchanged. -/
theorem c7_set_parameter_spec (c : ClosureColor) (ci p : Nat) (data : List Nat)
    (_hci : ci < c.ncomponents)
    (hdata : ((c.component ci).cprim.argtype p).size ≤ data.length)
    (hbound : (c.component ci).memoffset + (c.component ci).cprim.argoffset p
        + ((c.component ci).cprim.argtype p).size ≤ c.m_mem.length) :
    (c.set_parameter ci p data).m_components = c.m_components ∧
    (c.set_parameter ci p data).m_mem.length = c.m_mem.length ∧
    (∀ k, k < ((c.component ci).cprim.argtype p).size →
      (c.set_parameter ci p data).m_mem.getD
          ((c.component ci).memoffset + (c.component ci).cprim.argoffset p + k) 0
        = data.getD k 0) ∧
    (∀ k, k < (c.component ci).memoffset + (c.component ci).cprim.argoffset p →
      (c.set_parameter ci p data).m_mem.getD k 0 = c.m_mem.getD k 0) ∧
    (∀ k, (c.component ci).memoffset + (c.component ci).cprim.argoffset p
        + ((c.component ci).cprim.argtype p).size ≤ k →
      (c.set_parameter ci p data).m_mem.getD k 0 = c.m_mem.getD k 0) := by
  have hlen : (data.take ((c.component ci).cprim.argtype p).size).length
      = ((c.component ci).cprim.argtype p).size := by
    simp [List.length_take]
    omega
  refine ⟨rfl, writeBytesAt_length _ _ _, ?_, ?_, ?_⟩
  · intro k hk
    have h1 := writeBytesAt_getD_in c.m_mem
      ((c.component ci).memoffset + (c.component ci).cprim.argoffset p)
      (data.take ((c.component ci).cprim.argtype p).size) k
      (by rw [hlen]; exact hk) (by omega)
    have h2 := getD_take data ((c.component ci).cprim.argtype p).size k hk
      (lt_of_lt_of_le hk hdata)
    exact h1.trans h2
  · intro k hk
    exact writeBytesAt_getD_lt c.m_mem _ _ k hk
  · intro k hk
    refine writeBytesAt_getD_ge c.m_mem _ _ k ?_
    rw [hlen]
    exact hk

/-- Witness for C7: writing the vector argument of the single diffuse
component of a concrete buffer. -/
theorem c7_set_parameter_spec_witness :
    0 < bufRed.ncomponents ∧
    ((bufRed.component 0).cprim.argtype 0).size ≤
      ([20, 21, 22, 23, 24, 25, 26, 27, 28, 29, 30, 31] : List Nat).length ∧
    (bufRed.component 0).memoffset + (bufRed.component 0).cprim.argoffset 0
        + ((bufRed.component 0).cprim.argtype 0).size ≤ bufRed.m_mem.length ∧
    (bufRed.set_parameter 0 0 [20, 21, 22, 23, 24, 25, 26, 27, 28, 29, 30, 31]).m_components
      = bufRed.m_components ∧
    (bufRed.set_parameter 0 0 [20, 21, 22, 23, 24, 25, 26, 27, 28, 29, 30, 31]).m_mem.getD
        ((bufRed.component 0).memoffset + (bufRed.component 0).cprim.argoffset 0 + 3) 0
      = ([20, 21, 22, 23, 24, 25, 26, 27, 28, 29, 30, 31] : List Nat).getD 3 0 := by
  have h := c7_set_parameter_spec bufRed 0 0
    [20, 21, 22, 23, 24, 25, 26, 27, 28, 29, 30, 31]
    (by decide) (by decide) (by decide)
  exact ⟨by decide, by decide, by decide, h.1, h.2.2.1 3 (by decide)⟩

/-- Claim C9: both `Component` constructors establish the cached argument
count `nargs == cprim->nargs()`, and every buffer operation preserves the
invariant that each held component's cached count agrees with its
descriptor. -/
theorem c9_nargs_invariant :
    (∀ prim w, (Component.make prim w).nargs = prim.nargs) ∧
    (∀ x, (Component.copy x).nargs = x.cprim.nargs) ∧
    ClosureColor.empty.nargsInv ∧
    (∀ c : ClosureColor, (c.clear).nargsInv) ∧
    (∀ (c : ClosureColor) prim w params, c.nargsInv →
      (c.add_component prim w params).nargsInv) ∧
    (∀ (c : ClosureColor) prim params, (c.set prim params).nargsInv) ∧
    (∀ c A : ClosureColor, c.nargsInv → A.nargsInv → (c.add A).nargsInv) ∧
    (∀ dest a b : ClosureColor, a.nargsInv → b.nargsInv →
      (ClosureColor.add2 dest a b).nargsInv) ∧
    (∀ (c : ClosureColor) w, c.nargsInv → (c.mulColor w).nargsInv) ∧
    (∀ (c : ClosureColor) f, c.nargsInv → (c.mulScalar f).nargsInv) ∧
    (∀ (c : ClosureColor) i p data, c.nargsInv →
      (c.set_parameter i p data).nargsInv) := by
  have hadd_comp : ∀ (c : ClosureColor) prim w params, c.nargsInv →
      (c.add_component prim w params).nargsInv := by
    intro c prim w params hc x hx
    rcases List.mem_append.mp hx with hx | hx
    · exact hc x hx
    · rcases List.mem_singleton.mp hx with rfl
      rfl
  have hadd : ∀ c A : ClosureColor, c.nargsInv → A.nargsInv → (c.add A).nargsInv := by
    intro c A hc hA x hx
    rcases List.mem_append.mp hx with hx | hx
    · exact hc x hx
    · rcases List.mem_map.mp hx with ⟨y, hy, rfl⟩
      exact hA y hy
  have hmulC : ∀ (c : ClosureColor) w, c.nargsInv → (c.mulColor w).nargsInv := by
    intro c w hc x hx
    rcases List.mem_map.mp hx with ⟨y, hy, rfl⟩
    exact hc y hy
  have hmulS : ∀ (c : ClosureColor) f, c.nargsInv → (c.mulScalar f).nargsInv := by
    intro c f hc x hx
    rcases List.mem_map.mp hx with ⟨y, hy, rfl⟩
    exact hc y hy
  have hempty : ClosureColor.empty.nargsInv := by
    intro x hx
    simp [ClosureColor.empty] at hx
  refine ⟨fun prim w => rfl, fun x => rfl, hempty, fun c => hempty, hadd_comp,
    ?_, hadd, ?_, hmulC, hmulS, ?_⟩
  · intro c prim params
    exact hadd_comp (c.clear) prim ⟨1, 1, 1⟩ params hempty
  · intro dest a b hA hB
    exact hadd a b hA hB
  · intro c i p data hc x hx
    exact hc x hx

/-- Witness for C9: the invariant holds on a concrete buffer and is kept by
a concrete `add_component`. -/
theorem c9_nargs_invariant_witness :
    bufRed.nargsInv ∧ (bufRed.add_component phongPrim ⟨2, 2, 2⟩ []).nargsInv :=
  ⟨by decide, c9_nargs_invariant.2.2.2.2.1 bufRed phongPrim ⟨2, 2, 2⟩ [] (by decide)⟩

/-- Witness for C10 at concrete BSDF and emissive descriptors. -/
theorem c10_category_fixed_witness :
    BSDFClosure.make "diffuse" "v" = some diffusePrim ∧
    diffusePrim.category = Category.BSDF ∧
    EmissiveClosure.make "emission" "" = some emissionPrim ∧
    emissionPrim.category = Category.Emissive := by
  have h1 : BSDFClosure.make "diffuse" "v" = some diffusePrim := rfl
  have h2 : EmissiveClosure.make "emission" "" = some emissionPrim := rfl
  exact ⟨h1, (c10_category_fixed "diffuse" "v").1 diffusePrim h1,
         h2, (c10_category_fixed "emission" "").2 emissionPrim h2⟩

end OSL
